import Mathlib

/-!
Verification development for the cr-meta-llama voice-assistant server.

The definitions below are a shallow embedding of the TypeScript sources:
  - `SessionManager` (src/services/conversation/session.manager.ts):
    session registry, bounded conversation history.
  - `StreamingHandler.cleanForVoice` (src/services/llama/streaming.handler.ts):
    the voice-text normalizer, a pipeline of regex replacements modelled as
    character-list transformations.
  - `LlamaService` (src/services/llama/llama.service.ts): request building
    (`buildMessages`) and the stream-cancellation bookkeeping
    (`activeStreams` map of abort controllers).
  - `MessageHandler` (src/services/websocket/message.handler.ts): the
    protocol router dispatching setup / prompt / interrupt / dtmf / end /
    error events.
  - `DtmfHandler` (src/services/conversation/dtmf.handler.ts): the
    multi-digit DTMF command matcher.  This source file is absent from the
    available sources (only its unit test is present), so it is modelled
    from the specification; see `processDigits` below.

JavaScript `Map` objects are modelled as association lists over `String`
keys (insertion order preserved, `set` on an existing key replaces the
first matching entry in place).  `Date` timestamps carry no information
used by any handler and are omitted.  Network calls are modelled as
oracle functions passed in as parameters.
-/

namespace CrMetaLlama

/-! ### Association-list model of the JavaScript Map -/

/-- Embeds JS `Map.prototype.set`: replace in place if the key is present,
otherwise append at the end (insertion order). -/
def mapSet {α : Type} : List (String × α) → String → α → List (String × α)
  | [], k, v => [(k, v)]
  | p :: rest, k, v => if p.1 = k then (k, v) :: rest else p :: mapSet rest k v

/-- JS `Map.prototype.get`. -/
def mapGet {α : Type} : List (String × α) → String → Option α
  | [], _ => none
  | p :: rest, k => if p.1 = k then some p.2 else mapGet rest k

/-- JS `Map.prototype.delete` (removes the entry with the given key). -/
def mapDelete {α : Type} : List (String × α) → String → List (String × α)
  | [], _ => []
  | p :: rest, k => if p.1 = k then mapDelete rest k else p :: mapDelete rest k

/-- Number of entries stored under a key. -/
def countKey {α : Type} : List (String × α) → String → Nat
  | [], _ => 0
  | p :: rest, k => (if p.1 = k then 1 else 0) + countKey rest k

theorem mapGet_mapSet_self {α : Type} (m : List (String × α)) (k : String)
    (v : α) : mapGet (mapSet m k v) k = some v := by
  induction m with
  | nil => simp [mapSet, mapGet]
  | cons p rest ih =>
    by_cases h : p.1 = k
    · simp [mapSet, mapGet, h]
    · simp [mapSet, mapGet, h, ih]

theorem mapGet_mapSet_ne {α : Type} (m : List (String × α)) (k k' : String)
    (v : α) (hne : k' ≠ k) : mapGet (mapSet m k v) k' = mapGet m k' := by
  have h1 : k ≠ k' := fun hh => hne hh.symm
  induction m with
  | nil => simp [mapSet, mapGet, h1]
  | cons p rest ih =>
    by_cases h : p.1 = k
    · have h2 : p.1 ≠ k' := h.symm ▸ h1
      simp [mapSet, mapGet, h, h1, h2]
    · by_cases h' : p.1 = k'
      · simp [mapSet, mapGet, h, h', hne]
      · simp [mapSet, mapGet, h, h', ih]

theorem mapGet_mapDelete_self {α : Type} (m : List (String × α)) (k : String) :
    mapGet (mapDelete m k) k = none := by
  induction m with
  | nil => simp [mapDelete, mapGet]
  | cons p rest ih =>
    by_cases h : p.1 = k
    · simp [mapDelete, h, ih]
    · simp [mapDelete, mapGet, h, ih]

theorem mapGet_mapDelete_ne {α : Type} (m : List (String × α)) (k k' : String)
    (hne : k' ≠ k) : mapGet (mapDelete m k) k' = mapGet m k' := by
  induction m with
  | nil => simp [mapDelete]
  | cons p rest ih =>
    by_cases h : p.1 = k
    · have h2 : p.1 ≠ k' := fun hh => hne (hh ▸ h)
      have h1 : k ≠ k' := fun hh => hne hh.symm
      simp [mapDelete, mapGet, h, h2, h1, ih]
    · by_cases h' : p.1 = k'
      · simp [mapDelete, mapGet, h, h', hne]
      · simp [mapDelete, mapGet, h, h', ih]

theorem countKey_mapSet_ne {α : Type} (m : List (String × α)) (k k' : String)
    (v : α) (hne : k' ≠ k) : countKey (mapSet m k v) k' = countKey m k' := by
  have h1 : k ≠ k' := fun hh => hne hh.symm
  induction m with
  | nil => simp [mapSet, countKey, h1]
  | cons p rest ih =>
    by_cases h : p.1 = k
    · have h2 : p.1 ≠ k' := h.symm ▸ h1
      simp [mapSet, countKey, h, h1, h2]
    · simp [mapSet, countKey, h, ih]

theorem countKey_mapSet_self_le {α : Type} (m : List (String × α)) (k : String)
    (v : α) (hm : countKey m k ≤ 1) : countKey (mapSet m k v) k ≤ 1 := by
  induction m with
  | nil => simp [mapSet, countKey]
  | cons p rest ih =>
    by_cases h : p.1 = k
    · simp [mapSet, countKey, h] at hm ⊢
      omega
    · simp [mapSet, countKey, h] at hm ⊢
      exact ih hm

theorem countKey_mapSet_le {α : Type} (m : List (String × α)) (k k' : String)
    (v : α) (hm : countKey m k' ≤ 1) : countKey (mapSet m k v) k' ≤ 1 := by
  by_cases hk : k' = k
  · subst hk
    exact countKey_mapSet_self_le m k' v hm
  · rw [countKey_mapSet_ne m k k' v hk]
    exact hm

theorem countKey_mapDelete_le_self {α : Type} (m : List (String × α))
    (k k' : String) : countKey (mapDelete m k) k' ≤ countKey m k' := by
  induction m with
  | nil => simp [mapDelete]
  | cons p rest ih =>
    by_cases h : p.1 = k
    · simp only [mapDelete, h, if_true, countKey]
      exact ih.trans (Nat.le_add_left _ _)
    · simp only [mapDelete, h, if_false, countKey]
      exact Nat.add_le_add_left ih _

theorem countKey_mapDelete_le {α : Type} (m : List (String × α)) (k k' : String)
    (hm : countKey m k' ≤ 1) : countKey (mapDelete m k) k' ≤ 1 :=
  (countKey_mapDelete_le_self m k k').trans hm

/-! ### Data model: roles, conversation entries, sessions

Mirrors the `Session` interface of session.manager.ts (`callSid`, `from`,
`to`, `conversationHistory`; the `startTime : Date` field is only used for
logging a call duration and is omitted) and the role strings
`user | assistant | system` used throughout. -/

inductive Role
  | user
  | assistant
  | system
deriving DecidableEq, Repr

/-- One conversation turn: `{ role, content }`.  This is the shape stored
in `Session.conversationHistory` and also the shape of the messages sent
to the model by `LlamaService.buildMessages` (timestamps dropped). -/
structure Entry where
  role : Role
  content : String
deriving DecidableEq, Repr

structure Session where
  callSid : String
  fromNumber : String
  toNumber : String
  conversationHistory : List Entry
deriving DecidableEq, Repr

/-- The `SessionManager`: a Map from callSid to Session. -/
structure ManagerState where
  sessions : List (String × Session)
deriving DecidableEq, Repr

def emptyManager : ManagerState := ⟨[]⟩

/-- Embeds `SessionManager.createSession`: builds a fresh session with empty
history and stores it with `sessions.set(callSid, session)` —
unconditionally, with no check whether the key is already present. -/
def createSession (m : ManagerState) (callSid fromNumber toNumber : String) :
    ManagerState × Session :=
  let s : Session := ⟨callSid, fromNumber, toNumber, []⟩
  (⟨mapSet m.sessions callSid s⟩, s)

/-- Embeds `SessionManager.getSession`. -/
def getSession (m : ManagerState) (callSid : String) : Option Session :=
  mapGet m.sessions callSid

/-- The history update performed by `SessionManager.addMessage`: push the
new entry, then `slice(-20)` whenever the length exceeds 20. -/
def histAppend (h : List Entry) (e : Entry) : List Entry :=
  if 20 < (h ++ [e]).length then (h ++ [e]).drop ((h ++ [e]).length - 20)
  else h ++ [e]

/-- Embeds `SessionManager.addMessage`: no-op when the session is absent,
otherwise appends to the history and trims to the last 20 entries. -/
def addMessage (m : ManagerState) (callSid : String) (role : Role)
    (content : String) : ManagerState :=
  match mapGet m.sessions callSid with
  | none => m
  | some s =>
      ⟨mapSet m.sessions callSid
        { s with conversationHistory := histAppend s.conversationHistory ⟨role, content⟩ }⟩

/-- Embeds `SessionManager.endSession`: removes the session if present. -/
def endSession (m : ManagerState) (callSid : String) : ManagerState :=
  match mapGet m.sessions callSid with
  | none => m
  | some _ => ⟨mapDelete m.sessions callSid⟩

/-- Embeds `SessionManager.getActiveCallCount`. -/
def getActiveCallCount (m : ManagerState) : Nat := m.sessions.length

/-- A session-registry operation, for stating invariants over arbitrary
operation sequences. -/
inductive MgrOp
  | create (callSid fromNumber toNumber : String)
  | add (callSid : String) (role : Role) (content : String)
  | finish (callSid : String)
deriving DecidableEq, Repr

def mgrStep (m : ManagerState) : MgrOp → ManagerState
  | .create sid f t => (createSession m sid f t).1
  | .add sid role content => addMessage m sid role content
  | .finish sid => endSession m sid

def runOps (ops : List MgrOp) : ManagerState :=
  ops.foldl mgrStep emptyManager

/-! ### StreamingHandler.cleanForVoice (streaming.handler.ts)

The TypeScript method is a pipeline of `String.replace` calls with global
regexes.  Each stage is modelled as a character-list transformation that
follows the JS regex engine (leftmost match, lazy/greedy as written, one
position forward on a failed attempt).  The scanning stages that can jump
past a matched region are written with a fuel argument; every step
consumes at least one character, so `l.length` fuel is always enough and
the wrappers pass exactly that. -/

/-- The backtick character (U+0060). -/
def tickChar : Char := Char.ofNat 96

/-- Whitespace as matched by the regex whitespace class in cleanForVoice
(ASCII part). -/
def isWsChar (c : Char) : Bool :=
  c = ' ' || c = '\t' || c = '\n' || c = '\r'

/-- Stage 1: remove each leftmost non-overlapping pair of consecutive
asterisks (the bold-marker replace). -/
def replaceBold : List Char → List Char
  | a :: b :: rest =>
      if a = '*' ∧ b = '*' then replaceBold rest
      else a :: replaceBold (b :: rest)
  | l => l

/-- Stage 2: remove every remaining asterisk (the italic-marker replace). -/
def removeItalicStars (l : List Char) : List Char :=
  l.filter (fun c => c != '*')

/-- Splits after the first occurrence of three consecutive backticks,
returning the suffix that follows it. -/
def splitAtFence : List Char → Option (List Char)
  | [] => none
  | a :: rest =>
      if a = tickChar ∧ rest.take 2 = [tickChar, tickChar] then some (rest.drop 2)
      else splitAtFence rest

def stripCodeBlocksGo : Nat → List Char → List Char
  | 0, l => l
  | _ + 1, [] => []
  | fuel + 1, a :: rest =>
      if a = tickChar ∧ rest.take 2 = [tickChar, tickChar] then
        match splitAtFence (rest.drop 2) with
        | some rem => stripCodeBlocksGo fuel rem
        | none => a :: rest
      else a :: stripCodeBlocksGo fuel rest

/-- Stage 3: delete each fenced code block — an opening triple backtick,
lazily matched content, and the next triple backtick.  An opening fence
with no closing fence does not match and is left in place. -/
def stripCodeBlocks (l : List Char) : List Char := stripCodeBlocksGo l.length l

def stripInlineCodeGo : Nat → List Char → List Char
  | 0, l => l
  | _ + 1, [] => []
  | fuel + 1, c :: rest =>
      if c = tickChar then
        match rest.dropWhile (fun x => x != tickChar) with
        | _ :: after =>
            if (rest.takeWhile (fun x => x != tickChar)).isEmpty then
              c :: stripInlineCodeGo fuel rest
            else
              rest.takeWhile (fun x => x != tickChar) ++ stripInlineCodeGo fuel after
        | [] => c :: stripInlineCodeGo fuel rest
      else c :: stripInlineCodeGo fuel rest

/-- Stage 4: inline code — a backtick, one or more non-backtick
characters, and a backtick are replaced by the inner content. -/
def stripInlineCode (l : List Char) : List Char := stripInlineCodeGo l.length l

/-- Length of the leading run of # characters. -/
def hashRun : List Char → Nat
  | c :: rest => if c = '#' then hashRun rest + 1 else 0
  | [] => 0

def stripHeadersGo : Nat → List Char → List Char
  | 0, l => l
  | _ + 1, [] => []
  | fuel + 1, c :: rest =>
      if c = '#' then
        if 1 + hashRun rest ≤ 6 then
          match rest.drop (hashRun rest) with
          | w :: rem =>
              if isWsChar w then stripHeadersGo fuel rem
              else c :: stripHeadersGo fuel rest
          | [] => c :: stripHeadersGo fuel rest
        else c :: stripHeadersGo fuel rest
      else c :: stripHeadersGo fuel rest

/-- Stage 5: headers — one to six # characters followed by a whitespace
character are deleted (greedy count, one position forward on failure,
matching the JS engine). -/
def stripHeaders (l : List Char) : List Char := stripHeadersGo l.length l

/-- Attempts the link pattern right after an opening bracket: one or more
non-bracket-close characters, a closing bracket, an opening parenthesis,
one or more non-parenthesis-close characters, a closing parenthesis.
Returns the link text and the suffix after the match. -/
def matchLink (rest : List Char) : Option (List Char × List Char) :=
  match rest.dropWhile (fun x => x != ']') with
  | _ :: r2 =>
      if (rest.takeWhile (fun x => x != ']')).isEmpty then none
      else
        match r2 with
        | p :: r3 =>
            if p = '(' then
              match r3.dropWhile (fun x => x != ')') with
              | _ :: r5 =>
                  if (r3.takeWhile (fun x => x != ')')).isEmpty then none
                  else some (rest.takeWhile (fun x => x != ']'), r5)
              | [] => none
            else none
        | [] => none
  | [] => none

def stripLinksGo : Nat → List Char → List Char
  | 0, l => l
  | _ + 1, [] => []
  | fuel + 1, c :: rest =>
      if c = '[' then
        match matchLink rest with
        | some (txt, after) => txt ++ stripLinksGo fuel after
        | none => c :: stripLinksGo fuel rest
      else c :: stripLinksGo fuel rest

/-- Stage 6: markdown links — bracketed text followed by a parenthesised
URL is replaced by the text alone. -/
def stripLinks (l : List Char) : List Char := stripLinksGo l.length l

/-- Stage 7: remove angle brackets. -/
def stripAngles (l : List Char) : List Char :=
  l.filter (fun c => c != '<' && c != '>')

/-- Stages 8a-8c: replace every occurrence of a character by a word. -/
def replaceChar (t : Char) (s : List Char) : List Char → List Char
  | [] => []
  | c :: rest => (if c = t then s else [c]) ++ replaceChar t s rest

def collapseWsGo : Bool → List Char → List Char
  | _, [] => []
  | inRun, c :: rest =>
      if isWsChar c then
        if inRun then collapseWsGo true rest
        else ' ' :: collapseWsGo true rest
      else c :: collapseWsGo false rest

/-- Stage 9: collapse each maximal run of whitespace to a single space. -/
def collapseWs (l : List Char) : List Char := collapseWsGo false l

/-- Stage 10: trim leading and trailing whitespace. -/
def trimChars (l : List Char) : List Char :=
  ((l.dropWhile isWsChar).reverse.dropWhile isWsChar).reverse

/-- Embeds `StreamingHandler.cleanForVoice`, as the composition of the stages in
source order: bold, italics, code blocks, inline code, headers, links,
angle brackets, ampersand, at-sign, hash, whitespace collapse, trim. -/
def cleanForVoice (l : List Char) : List Char :=
  trimChars (collapseWs
    (replaceChar '#' " number ".data
      (replaceChar '@' " at ".data
        (replaceChar '&' " and ".data
          (stripAngles
            (stripLinks
              (stripHeaders
                (stripInlineCode
                  (stripCodeBlocks
                    (removeItalicStars (replaceBold l)))))))))))

/-- String-level wrapper. -/
def cleanForVoiceStr (s : String) : String := String.mk (cleanForVoice s.data)

/-! ### LlamaService (llama.service.ts) -/

/-- The configuration values read by the handlers
(`config.features.enableDtmf`, `config.features.enableInterruptions`,
`config.llama.systemPrompt`). -/
structure Config where
  enableDtmf : Bool
  enableInterruptions : Bool
  systemPrompt : String
deriving DecidableEq, Repr

/-- Embeds `LlamaService.buildMessages`: a system message built from the
configured system prompt, then the last ten history entries with
system-role entries skipped, then the user prompt as a final user
message. -/
def buildMessages (cfg : Config) (userPrompt : String)
    (conversationHistory : List Entry) : List Entry :=
  ⟨Role.system, cfg.systemPrompt⟩ ::
    ((conversationHistory.drop (conversationHistory.length - 10)).filter
      (fun e => e.role ≠ Role.system))
    ++ [⟨Role.user, userPrompt⟩]

/-! Stream-cancellation bookkeeping of `generateStreamingResponse` /
`cancelStream`.  `activeStreams` is the service's Map from session id to
the abort controller of a stream; controllers are numbered in creation
order.  `startedStreams` records every controller ever created with its
session, `abortedStreams` those on which `abort()` was called,
`finishedStreams` those whose streaming call has ended (the `finally`
block).  A stream is outstanding when started but neither aborted nor
finished. -/

structure LlamaStreamsState where
  activeStreams : List (String × Nat)
  startedStreams : List (Nat × String)
  abortedStreams : List Nat
  finishedStreams : List Nat
  nextController : Nat
deriving DecidableEq, Repr

def initStreams : LlamaStreamsState := ⟨[], [], [], [], 0⟩

/-- Observable events of the streaming lifecycle: the start of
`generateStreamingResponse` (lines 92-99: create a fresh AbortController
and `activeStreams.set(sessionId, abortController)` — with no abort of
any previously stored controller), the `finally` block of a running
stream (`activeStreams.delete(sessionId)`), and `cancelStream`
(abort the controller found under the key, then delete the key). -/
inductive StreamEv
  | start (sessionId : String)
  | finish (sessionId : String) (controller : Nat)
  | cancel (sessionId : String)
deriving DecidableEq, Repr

def streamStep (st : LlamaStreamsState) : StreamEv → LlamaStreamsState
  | .start sid =>
      { st with
        activeStreams := mapSet st.activeStreams sid st.nextController
        startedStreams := st.startedStreams ++ [(st.nextController, sid)]
        nextController := st.nextController + 1 }
  | .finish sid controller =>
      { st with
        activeStreams := mapDelete st.activeStreams sid
        finishedStreams := st.finishedStreams ++ [controller] }
  | .cancel sid =>
      match mapGet st.activeStreams sid with
      | some controller =>
          { st with
            abortedStreams := st.abortedStreams ++ [controller]
            activeStreams := mapDelete st.activeStreams sid }
      | none => st

def runStreams (evs : List StreamEv) : LlamaStreamsState :=
  evs.foldl streamStep initStreams

/-- Number of outstanding cancellable streams for a session: started, not
aborted, not finished. -/
def countOutstanding (st : LlamaStreamsState) (sid : String) : Nat :=
  (st.startedStreams.filter (fun p =>
    p.2 == sid && !(st.abortedStreams.contains p.1)
      && !(st.finishedStreams.contains p.1))).length

/-! ### MessageHandler (message.handler.ts) -/

/-- Outbound events produced by the handler: a Text token message or an
EndSession message. -/
inductive OutMsg
  | text (token : String) (interruptible : Bool) (last : Bool)
  | endSession
deriving DecidableEq, Repr

/-- Inbound protocol events dispatched by `handleMessage`. -/
inductive InMsg
  | setup (callSid fromNumber toNumber : String)
  | prompt (voicePrompt : String)
  | interrupt (utteranceUntilInterrupt : String)
  | dtmf (digit : Char)
  | finish (reason : String)
  | protoError (description : String)
deriving DecidableEq, Repr

/-- The spoken responses of the DTMF switch in
`MessageHandler.handleDtmf`. -/
def dtmfText (digit : Char) : String :=
  if digit = '*' then "You pressed star. How can I help you?"
  else if digit = '0' then
    "You pressed zero. Transferring to an operator is not available at this time."
  else "You pressed " ++ String.singleton digit ++ ". Please speak your request."

/-- Embeds `MessageHandler.handleDtmf`: returns null when the DTMF feature is
disabled; otherwise answers from the digit alone — the hash digit ends
the session, every other digit maps to a fixed text.  The session
registry is never consulted. -/
def handleDtmfReply (cfg : Config) (digit : Char) : Option OutMsg :=
  if cfg.enableDtmf then
    if digit = '#' then some OutMsg.endSession
    else some (OutMsg.text (dtmfText digit) true true)
  else none

/-- The conversation history that `handlePrompt` reads back from the
registry after adding the user message (the TypeScript reads
`session.conversationHistory` through the same object reference the
manager mutates). -/
def promptHistoryAfterAdd (m : ManagerState) (sid : String) (u : String) :
    List Entry :=
  ((getSession (addMessage m sid Role.user u) sid).map
    Session.conversationHistory).getD []

/-- The fallback reply of `handlePrompt` when the model call throws. -/
def promptApology : String :=
  "I apologize, but I had trouble processing that. Could you please try again?"

/-- Embeds `MessageHandler.handlePrompt`.  The model call is an oracle `llm`
(`Except.error` models a thrown backend error, handled by the catch
block).  Absent call id or absent session: log and return null. -/
def handlePrompt (cfg : Config) (llm : List Entry → Except Unit String)
    (m : ManagerState) (wsCallSid : Option String) (voicePrompt : String) :
    ManagerState × Option OutMsg :=
  match wsCallSid with
  | none => (m, none)
  | some sid =>
      match getSession m sid with
      | none => (m, none)
      | some _ =>
          let m1 := addMessage m sid Role.user voicePrompt
          let hist := ((getSession m1 sid).map Session.conversationHistory).getD []
          match llm (buildMessages cfg voicePrompt hist) with
          | .ok response =>
              (addMessage m1 sid Role.assistant response,
                some (OutMsg.text response cfg.enableInterruptions true))
          | .error _ =>
              (m1, some (OutMsg.text promptApology true true))

/-- Embeds `MessageHandler.handleMessage`: dispatch of one inbound event.
Returns the updated registry, the updated connection call id
(`ws.callSid`), and the outbound event, if any.  The interrupt branch
cancels any stream of the session (an effect on `LlamaStreamsState`,
modelled separately by `streamStep`) and leaves the registry untouched. -/
def routerStep (cfg : Config) (llm : List Entry → Except Unit String)
    (m : ManagerState) (wsCallSid : Option String) :
    InMsg → ManagerState × Option String × Option OutMsg
  | .setup sid f t => ((createSession m sid f t).1, some sid, none)
  | .prompt u =>
      let r := handlePrompt cfg llm m wsCallSid u
      (r.1, wsCallSid, r.2)
  | .interrupt _ => (m, wsCallSid, none)
  | .dtmf d => (m, wsCallSid, handleDtmfReply cfg d)
  | .finish _ =>
      match wsCallSid with
      | some sid => (endSession m sid, none, none)
      | none => (m, wsCallSid, none)
  | .protoError _ => (m, wsCallSid, none)

/-! ### DtmfHandler (dtmf.handler.ts)

Modelled from the spec: the source file
src/services/conversation/dtmf.handler.ts is not among the available
sources (only its unit test is), so the multi-digit DTMF command matcher
below follows spec section 4.2 word for word: reserved digits checked
before table lookup, then exact-match / strict-prefix (pending) /
no-prefix (no match) resolution over the registered command table. -/

inductive DtmfAction
  | respond
  | repeatLast
  | transferOperator
  | custom
deriving DecidableEq, Repr

/-- A registered DTMF command: digit sequence, action tag, description. -/
structure DtmfCommand where
  sequence : List Char
  action : DtmfAction
  description : String
deriving DecidableEq, Repr

/-- Outcome classification from spec section 4.2. -/
inductive DtmfOutcome
  | matched
  | pending
  | noMatch
  | bufferCleared
  | callEnded
deriving DecidableEq, Repr

structure DtmfResult where
  outcome : DtmfOutcome
  message : String
  endCall : Bool
  transfer : Option String
deriving DecidableEq, Repr

/-- Modelled from the spec: the default command table — star (menu),
nine (repeat last assistant utterance), zero (operator transfer), one
(fixed informational menu entry). -/
def defaultCommands : List DtmfCommand :=
  [⟨['*'], DtmfAction.respond, "Returning to the main menu. How can I help you?"⟩,
   ⟨['9'], DtmfAction.repeatLast, "Repeat the last assistant message"⟩,
   ⟨['0'], DtmfAction.transferOperator, "Transferring you to an operator. Please hold."⟩,
   ⟨['1'], DtmfAction.respond, "Here is your account information."⟩]

/-- Runtime registration of a command (test: `registerCommand`). -/
def registerCommand (table : List DtmfCommand) (c : DtmfCommand) :
    List DtmfCommand :=
  table ++ [c]

/-- Does `seq` start with `buf`? -/
def seqStartsWith (seq buf : List Char) : Bool :=
  seq.take buf.length == buf

/-- Most recent assistant entry of a history. -/
def lastAssistant : List Entry → Option Entry
  | [] => none
  | e :: rest =>
      match lastAssistant rest with
      | some a => some a
      | none => if e.role = Role.assistant then some e else none

/-- Modelled from the spec: executing a matched command's effect. -/
def executeCommand (c : DtmfCommand) (history : List Entry) : DtmfResult :=
  match c.action with
  | DtmfAction.repeatLast =>
      match lastAssistant history with
      | some e => ⟨DtmfOutcome.matched, e.content, false, none⟩
      | none => ⟨DtmfOutcome.matched, "No previous message to repeat.", false, none⟩
  | DtmfAction.transferOperator =>
      ⟨DtmfOutcome.matched, c.description, false, some "operator"⟩
  | _ => ⟨DtmfOutcome.matched, c.description, false, none⟩

def validDigit (d : Char) : Bool := d.isDigit || d = '*' || d = '#'

/-- Modelled from the spec: `DtmfHandler.processDigits` — one digit fed
to the matcher for a session holding `buffer` and `history`.  Returns
`none` for a digit outside the DTMF alphabet (buffer untouched),
otherwise the result and the new buffer.  Reserved behaviours (hash ends
the call; star-star clears the buffer) run before table lookup; then the
buffer-with-digit is resolved against the table: exact match with no
longer candidate executes and clears, a strict-prefix candidate keeps the
buffer pending, no candidate clears the buffer with the invalid-option
response (naming the digit only when the buffer held just that digit). -/
def processDigits (table : List DtmfCommand) (d : Char)
    (buffer : List Char) (history : List Entry) :
    Option (DtmfResult × List Char) :=
  if validDigit d then
    if d = '#' then
      some (⟨DtmfOutcome.callEnded, "Goodbye. Thank you for calling.", true, none⟩, [])
    else
      let buf := buffer ++ [d]
      if buf = ['*', '*'] then
        some (⟨DtmfOutcome.bufferCleared, "Clear DTMF buffer", false, none⟩, [])
      else
        match table.find? (fun c => c.sequence == buf) with
        | some c =>
            if table.any (fun c2 => seqStartsWith c2.sequence buf && c2.sequence != buf) then
              some (⟨DtmfOutcome.pending, "Please continue entering digits.", false, none⟩, buf)
            else
              some (executeCommand c history, [])
        | none =>
            if table.any (fun c2 => seqStartsWith c2.sequence buf && c2.sequence != buf) then
              some (⟨DtmfOutcome.pending, "Please continue entering digits.", false, none⟩, buf)
            else
              if buf.length = 1 then
                some (⟨DtmfOutcome.noMatch,
                  "You pressed " ++ String.singleton d ++ ". That is not a valid option.",
                  false, none⟩, [])
              else
                some (⟨DtmfOutcome.noMatch, "That is not a valid option.", false, none⟩, [])
  else none

/-! ### Theorems: session registry (claims C1 and C5) -/

theorem histAppend_eq_drop (h : List Entry) (e : Entry) :
    histAppend h e = (h ++ [e]).drop ((h ++ [e]).length - 20) := by
  unfold histAppend
  by_cases hl : 20 < (h ++ [e]).length
  · rw [if_pos hl]
  · rw [if_neg hl]
    have h0 : (h ++ [e]).length - 20 = 0 := by omega
    rw [h0, List.drop_zero]

theorem histAppend_length_le (h : List Entry) (e : Entry)
    (hh : h.length ≤ 20) : (histAppend h e).length ≤ 20 := by
  rw [histAppend_eq_drop]
  simp only [List.length_drop, List.length_append, List.length_singleton]
  omega

/-- Invariant: every stored session has a history of at most 20 turns. -/
def HistBounded (m : ManagerState) : Prop :=
  ∀ sid s, getSession m sid = some s → s.conversationHistory.length ≤ 20

theorem histBounded_step (m : ManagerState) (op : MgrOp)
    (hm : HistBounded m) : HistBounded (mgrStep m op) := by
  cases op with
  | create sid f t =>
    intro sid' s' hs'
    by_cases hk : sid' = sid
    · subst hk
      rw [mgrStep, createSession] at hs'
      simp only [getSession] at hs'
      rw [mapGet_mapSet_self] at hs'
      cases hs'
      simp
    · rw [mgrStep, createSession] at hs'
      simp only [getSession] at hs'
      rw [mapGet_mapSet_ne _ _ _ _ hk] at hs'
      exact hm sid' s' hs'
  | add sid role content =>
    intro sid' s' hs'
    rw [mgrStep, addMessage] at hs'
    cases hg : mapGet m.sessions sid with
    | none => rw [hg] at hs'; exact hm sid' s' hs'
    | some s =>
      rw [hg] at hs'
      by_cases hk : sid' = sid
      · subst hk
        simp only [getSession] at hs'
        rw [mapGet_mapSet_self] at hs'
        cases hs'
        exact histAppend_length_le _ _ (hm sid' s hg)
      · simp only [getSession] at hs'
        rw [mapGet_mapSet_ne _ _ _ _ hk] at hs'
        exact hm sid' s' hs'
  | finish sid =>
    intro sid' s' hs'
    rw [mgrStep, endSession] at hs'
    cases hg : mapGet m.sessions sid with
    | none => rw [hg] at hs'; exact hm sid' s' hs'
    | some s =>
      rw [hg] at hs'
      by_cases hk : sid' = sid
      · subst hk
        simp only [getSession] at hs'
        rw [mapGet_mapDelete_self] at hs'
        cases hs'
      · simp only [getSession] at hs'
        rw [mapGet_mapDelete_ne _ _ _ hk] at hs'
        exact hm sid' s' hs'

theorem histBounded_foldl (ops : List MgrOp) (m : ManagerState)
    (hm : HistBounded m) : HistBounded (ops.foldl mgrStep m) := by
  induction ops generalizing m with
  | nil => exact hm
  | cons op rest ih => exact ih _ (histBounded_step m op hm)

/-- Claim C1: for every session and every sequence of registry
operations, the conversation history holds at most 20 entries after each
append, and an append past the cap drops the oldest entries, keeping the
most recent 20 in order (`slice(-20)` = drop all but the last 20 of the
pushed list). -/
theorem history_cap_and_fifo :
    (∀ (ops : List MgrOp) (sid : String) (s : Session),
        getSession (runOps ops) sid = some s →
        s.conversationHistory.length ≤ 20)
    ∧ (∀ (m : ManagerState) (sid : String) (role : Role) (content : String)
        (s : Session), getSession m sid = some s →
        getSession (addMessage m sid role content) sid =
          some { s with conversationHistory := ((s.conversationHistory ++ [Entry.mk role content]).drop ((s.conversationHistory ++ [Entry.mk role content]).length - 20)) }) := by
  constructor
  · intro ops sid s hs
    exact histBounded_foldl ops emptyManager (fun _ _ h => by cases h) sid s hs
  · intro m sid role content s hs
    rw [addMessage]
    simp only [getSession] at hs
    rw [hs]
    simp only [getSession]
    rw [mapGet_mapSet_self, histAppend_eq_drop]

/-- Witness for C1 at a concrete operation sequence and a concrete
registry. -/
theorem history_cap_and_fifo_witness :
    (⟨"CA1", "from", "to", [⟨Role.user, "hi"⟩]⟩ : Session).conversationHistory.length ≤ 20
    ∧ getSession
        (addMessage (createSession emptyManager "CA1" "a" "b").1 "CA1" Role.user "x") "CA1"
      = some (Session.mk "CA1" "a" "b"
          ((([] : List Entry) ++ [Entry.mk Role.user "x"]).drop
            ((([] : List Entry) ++ [Entry.mk Role.user "x"]).length - 20))) :=
  ⟨history_cap_and_fifo.1 [.create "CA1" "from" "to", .add "CA1" Role.user "hi"]
      "CA1" ⟨"CA1", "from", "to", [⟨Role.user, "hi"⟩]⟩ (by decide),
   history_cap_and_fifo.2 (createSession emptyManager "CA1" "a" "b").1 "CA1"
      Role.user "x" ⟨"CA1", "a", "b", []⟩ (by decide)⟩

/-- Counterexample to claim C5: `createSession` on an id that is already
present succeeds and replaces the stored session — after a second create
for CA1, the registry holds a fresh session with the new caller numbers
and an empty history, not the earlier session with its history. -/
theorem createSession_replaces_cex :
    getSession
      ((createSession
        (addMessage (createSession emptyManager "CA1" "+1" "+2").1 "CA1" Role.user "hi")
        "CA1" "+3" "+4").1) "CA1"
      = some ⟨"CA1", "+3", "+4", []⟩
    ∧ getSession
        (addMessage (createSession emptyManager "CA1" "+1" "+2").1 "CA1" Role.user "hi")
        "CA1"
      = some ⟨"CA1", "+1", "+2", [⟨Role.user, "hi"⟩]⟩ := by
  constructor <;> decide

/-- Invariant: at most one stored entry per call identifier. -/
def KeysBounded (m : ManagerState) : Prop :=
  ∀ sid, countKey m.sessions sid ≤ 1

theorem keysBounded_step (m : ManagerState) (op : MgrOp)
    (hm : KeysBounded m) : KeysBounded (mgrStep m op) := by
  cases op with
  | create sid f t =>
    intro sid'
    exact countKey_mapSet_le _ _ _ _ (hm sid')
  | add sid role content =>
    intro sid'
    rw [mgrStep, addMessage]
    cases hg : mapGet m.sessions sid with
    | none => exact hm sid'
    | some s => exact countKey_mapSet_le _ _ _ _ (hm sid')
  | finish sid =>
    intro sid'
    rw [mgrStep, endSession]
    cases hg : mapGet m.sessions sid with
    | none => exact hm sid'
    | some s => exact countKey_mapDelete_le _ _ _ (hm sid')

/-- Claim C5 (amended): `createSession` never fails — it always stores a
fresh session under the id, replacing any session already stored there;
the registry still holds at most one session per call identifier. -/
theorem createSession_overwrites_unique :
    (∀ (m : ManagerState) (sid f t : String),
        getSession (createSession m sid f t).1 sid = some ⟨sid, f, t, []⟩)
    ∧ (∀ (ops : List MgrOp) (sid : String),
        countKey (runOps ops).sessions sid ≤ 1) := by
  constructor
  · intro m sid f t
    simp only [createSession, getSession]
    exact mapGet_mapSet_self _ _ _
  · intro ops sid
    have : ∀ (l : List MgrOp) (m : ManagerState), KeysBounded m →
        KeysBounded (l.foldl mgrStep m) := by
      intro l
      induction l with
      | nil => intro m hm; exact hm
      | cons op rest ih => intro m hm; exact ih _ (keysBounded_step m op hm)
    exact this ops emptyManager (fun _ => by simp [emptyManager, countKey]) sid

/-! ### Theorems: stream cancellation (claim C2) -/

/-- Counterexample to claim C2: calling `generateStreamingResponse` twice
for the same session merely overwrites the `activeStreams` entry — the
first AbortController is never aborted, so after the second start the
session has two outstanding cancellable streams. -/
theorem double_start_two_outstanding_cex :
    countOutstanding (runStreams [StreamEv.start "s", StreamEv.start "s"]) "s" = 2
    ∧ (runStreams [StreamEv.start "s", StreamEv.start "s"]).abortedStreams = [] := by
  constructor <;> decide

/-- Invariant: the `activeStreams` map holds at most one entry per
session id. -/
def StreamKeysBounded (st : LlamaStreamsState) : Prop :=
  ∀ sid, countKey st.activeStreams sid ≤ 1

theorem streamKeysBounded_step (st : LlamaStreamsState) (ev : StreamEv)
    (hst : StreamKeysBounded st) : StreamKeysBounded (streamStep st ev) := by
  cases ev with
  | start sid =>
    intro sid'
    exact countKey_mapSet_le _ _ _ _ (hst sid')
  | finish sid controller =>
    intro sid'
    exact countKey_mapDelete_le _ _ _ (hst sid')
  | cancel sid =>
    intro sid'
    rw [streamStep]
    cases hg : mapGet st.activeStreams sid with
    | none => exact hst sid'
    | some controller => exact countKey_mapDelete_le _ _ _ (hst sid')

/-- Claim C2 (amended): the service tracks at most one cancellation
handle per session — the `activeStreams` map never holds two entries for
one session id — but starting a new streaming completion does not cancel
the previous stream: the start step aborts nothing and finishes nothing,
it only overwrites the tracked handle. -/
theorem activeStreams_at_most_one_tracked :
    (∀ (evs : List StreamEv) (sid : String),
        countKey (runStreams evs).activeStreams sid ≤ 1)
    ∧ (∀ (st : LlamaStreamsState) (sid : String),
        (streamStep st (StreamEv.start sid)).abortedStreams = st.abortedStreams
        ∧ (streamStep st (StreamEv.start sid)).finishedStreams = st.finishedStreams) := by
  constructor
  · intro evs sid
    have : ∀ (l : List StreamEv) (st : LlamaStreamsState), StreamKeysBounded st →
        StreamKeysBounded (l.foldl streamStep st) := by
      intro l
      induction l with
      | nil => intro st hst; exact hst
      | cons ev rest ih => intro st hst; exact ih _ (streamKeysBounded_step st ev hst)
    exact this evs initStreams (fun _ => by simp [initStreams, countKey]) sid
  · intro st sid
    exact ⟨rfl, rfl⟩

/-! ### Theorems: router error handling (claim C4) and DTMF purity
(claim C10) -/

/-- Counterexample to claim C4: a Dtmf event on a connection whose call
id has no live session still produces an outbound Text event — the DTMF
branch never consults the session registry. -/
theorem dtmf_absent_session_reply_cex :
    (routerStep ⟨true, true, "sys"⟩ (fun _ => Except.ok "") emptyManager
        (some "CA1") (InMsg.dtmf '5')).2.2
      = some (OutMsg.text "You pressed 5. Please speak your request." true true)
    ∧ getSession emptyManager "CA1" = none := by
  constructor <;> decide

/-- Claim C4 (amended): a Prompt event with no call id on the connection,
or whose call id has no live session, is logged and dropped — no outbound
event, registry unchanged.  A Dtmf event is answered from the digit and
configuration alone, without consulting the session registry. -/
theorem prompt_dropped_dtmf_answered :
    (∀ (cfg : Config) (llm : List Entry → Except Unit String)
        (m : ManagerState) (u : String),
        handlePrompt cfg llm m none u = (m, none))
    ∧ (∀ (cfg : Config) (llm : List Entry → Except Unit String)
        (m : ManagerState) (sid u : String), getSession m sid = none →
        handlePrompt cfg llm m (some sid) u = (m, none))
    ∧ (∀ (cfg : Config) (llm : List Entry → Except Unit String)
        (m : ManagerState) (ws : Option String) (d : Char),
        (routerStep cfg llm m ws (InMsg.dtmf d)).2.2 = handleDtmfReply cfg d) := by
  refine ⟨fun cfg llm m u => rfl, ?_, fun cfg llm m ws d => rfl⟩
  intro cfg llm m sid u hnone
  simp [handlePrompt, hnone]

/-- Witness for C4 (amended) at a concrete empty registry. -/
theorem prompt_dropped_dtmf_answered_witness :
    handlePrompt ⟨true, true, "sys"⟩ (fun _ => Except.ok "r") emptyManager
        (some "CA1") "hello" = (emptyManager, none) :=
  prompt_dropped_dtmf_answered.2.1 ⟨true, true, "sys"⟩ (fun _ => Except.ok "r")
    emptyManager "CA1" "hello" (by decide)

/-- Claim C10: with the DTMF feature enabled, the outbound reply to a
Dtmf event is a function of the pressed digit (and static configuration)
alone — identical for any two registry states, oracles and connections —
and handling the event leaves the registry and the connection state
unchanged. -/
theorem dtmf_reply_function_of_digit (cfg : Config)
    (llm1 llm2 : List Entry → Except Unit String) (m1 m2 : ManagerState)
    (ws1 ws2 : Option String) (d : Char) (_henabled : cfg.enableDtmf = true) :
    (routerStep cfg llm1 m1 ws1 (InMsg.dtmf d)).2.2
      = (routerStep cfg llm2 m2 ws2 (InMsg.dtmf d)).2.2
    ∧ (routerStep cfg llm1 m1 ws1 (InMsg.dtmf d)).1 = m1
    ∧ (routerStep cfg llm1 m1 ws1 (InMsg.dtmf d)).2.1 = ws1 :=
  ⟨rfl, rfl, rfl⟩

/-- Witness for C10 at two concrete registries with different histories. -/
theorem dtmf_reply_function_of_digit_witness :
    (routerStep ⟨true, true, "sys"⟩ (fun _ => Except.ok "a")
        (addMessage (createSession emptyManager "CA1" "f" "t").1 "CA1" Role.user "hi")
        (some "CA1") (InMsg.dtmf '2')).2.2
      = (routerStep ⟨true, true, "sys"⟩ (fun _ => Except.ok "b") emptyManager
          none (InMsg.dtmf '2')).2.2 :=
  (dtmf_reply_function_of_digit ⟨true, true, "sys"⟩ (fun _ => Except.ok "a")
    (fun _ => Except.ok "b")
    (addMessage (createSession emptyManager "CA1" "f" "t").1 "CA1" Role.user "hi")
    emptyManager (some "CA1") none '2' rfl).1

/-! ### Theorems: model request building (claim C6) -/

/-- The trimmed history always keeps the just-appended entry as its last
element. -/
theorem histAppend_ends_with (h : List Entry) (e : Entry) :
    ∃ y, histAppend h e = y ++ [e] := by
  rw [histAppend_eq_drop]
  refine ⟨h.drop ((h ++ [e]).length - 20), ?_⟩
  rw [List.drop_append_of_le_length]
  simp only [List.length_append, List.length_singleton]
  omega

/-- Counterexample to claim C6: in the request built for the very first
user turn of a call, the user message occurs twice — `handlePrompt`
appends the user turn to the history before `buildMessages` appends it
again. -/
theorem user_turn_duplicated_cex :
    ((buildMessages ⟨true, true, "sys"⟩ "hi"
        (promptHistoryAfterAdd (createSession emptyManager "CA1" "f" "t").1 "CA1" "hi")).count
      (Entry.mk Role.user "hi")) = 2 := by
  decide

/-- Claim C6 (amended): the request opens with the configured system
instruction, closes with the new user turn, and carries in between the
most recent at most 10 history entries with system-role entries removed;
but the history `handlePrompt` hands to `buildMessages` already contains
the freshly appended user turn, so the user turn occurs at least twice in
the request. -/
theorem buildMessages_shape_and_duplication :
    (∀ (cfg : Config) (u : String) (hist : List Entry),
        (buildMessages cfg u hist).head? = some (Entry.mk Role.system cfg.systemPrompt)
        ∧ (buildMessages cfg u hist).getLast? = some (Entry.mk Role.user u)
        ∧ ((buildMessages cfg u hist).drop 1).dropLast
            = (hist.drop (hist.length - 10)).filter (fun e => e.role ≠ Role.system))
    ∧ (∀ (m : ManagerState) (sid : String) (s : Session) (u : String),
        getSession m sid = some s →
        promptHistoryAfterAdd m sid u = histAppend s.conversationHistory (Entry.mk Role.user u))
    ∧ (∀ (cfg : Config) (u : String) (hist : List Entry),
        2 ≤ (buildMessages cfg u (histAppend hist (Entry.mk Role.user u))).count
              (Entry.mk Role.user u)) := by
  refine ⟨?_, ?_, ?_⟩
  · intro cfg u hist
    refine ⟨rfl, ?_, ?_⟩
    · rw [buildMessages, List.getLast?_concat]
    · rw [buildMessages]
      simp only [List.cons_append, List.drop_succ_cons, List.drop_zero]
      exact List.dropLast_concat
  · intro m sid s u hs
    rw [promptHistoryAfterAdd, addMessage]
    simp only [getSession] at hs
    rw [hs]
    simp only [getSession]
    rw [mapGet_mapSet_self]
    rfl
  · intro cfg u hist
    obtain ⟨y, hy⟩ := histAppend_ends_with hist (Entry.mk Role.user u)
    rw [buildMessages, hy]
    have hlen : (y ++ [Entry.mk Role.user u]).length - 10 ≤ y.length := by
      simp only [List.length_append, List.length_singleton]
      omega
    rw [List.drop_append_of_le_length hlen, List.filter_append]
    simp [List.count_cons, List.count_append, List.filter_cons]

/-- Witness for C6 (amended) at a concrete registry. -/
theorem buildMessages_shape_and_duplication_witness :
    promptHistoryAfterAdd (createSession emptyManager "CA1" "f" "t").1 "CA1" "hi"
      = histAppend ([] : List Entry) (Entry.mk Role.user "hi") :=
  buildMessages_shape_and_duplication.2.1
    (createSession emptyManager "CA1" "f" "t").1 "CA1"
    (Session.mk "CA1" "f" "t" []) "hi" (by decide)

/-! ### Theorems: DTMF command matcher (claims C3 and C9) -/

/-- The table of the multi-digit test scenario: the defaults plus a
registered three-digit command. -/
def table123 : List DtmfCommand :=
  registerCommand defaultCommands ⟨['1', '2', '3'], DtmfAction.custom, "Test command"⟩

/-- Claim C3: with sequence 123 registered, digits 1 then 2 are pending
(buffer kept and grown), digit 3 is an exact match (buffer cleared);
digits 1, 2 then 4 end in a no-match with an empty buffer. -/
theorem dtmf_multi_digit_matching :
    processDigits table123 '1' [] [] =
      some (⟨DtmfOutcome.pending, "Please continue entering digits.", false, none⟩, ['1'])
    ∧ processDigits table123 '2' ['1'] [] =
      some (⟨DtmfOutcome.pending, "Please continue entering digits.", false, none⟩, ['1', '2'])
    ∧ processDigits table123 '3' ['1', '2'] [] =
      some (⟨DtmfOutcome.matched, "Test command", false, none⟩, [])
    ∧ processDigits table123 '4' ['1', '2'] [] =
      some (⟨DtmfOutcome.noMatch, "That is not a valid option.", false, none⟩, []) := by
  refine ⟨?_, ?_, ?_, ?_⟩ <;> decide

/-- A history whose entries are all user turns has no assistant entry. -/
theorem lastAssistant_of_all_user (h : List Entry)
    (hu : ∀ e ∈ h, e.role = Role.user) : lastAssistant h = none := by
  induction h with
  | nil => rfl
  | cons e rest ih =>
    rw [lastAssistant, ih (fun x hx => hu x (List.mem_cons_of_mem e hx))]
    have : e.role = Role.user := hu e (List.mem_cons_self e rest)
    simp [this]

/-- Pressing nine resolves to the repeat-last command of the default
table, whatever the history. -/
theorem processDigits_nine (h : List Entry) :
    processDigits defaultCommands '9' [] h =
      some (executeCommand ⟨['9'], DtmfAction.repeatLast, "Repeat the last assistant message"⟩ h, []) :=
  rfl

/-- Claim C9: pressing nine with an empty or user-only history answers
with the fixed no-previous-message text; with an assistant entry in the
history it answers with the exact text of the most recent assistant
entry. -/
theorem dtmf_nine_repeats_last_assistant :
    (∀ (h : List Entry), (∀ e ∈ h, e.role = Role.user) →
        processDigits defaultCommands '9' [] h =
          some (⟨DtmfOutcome.matched, "No previous message to repeat.", false, none⟩, []))
    ∧ (∀ (h : List Entry) (e : Entry), lastAssistant h = some e →
        processDigits defaultCommands '9' [] h =
          some (⟨DtmfOutcome.matched, e.content, false, none⟩, [])) := by
  constructor
  · intro h hu
    rw [processDigits_nine, executeCommand]
    simp [lastAssistant_of_all_user h hu]
  · intro h e he
    rw [processDigits_nine, executeCommand]
    simp [he]

/-- Witness for C9 at the empty history, a user-only history, and a
mixed history ending in an assistant reply. -/
theorem dtmf_nine_repeats_last_assistant_witness :
    processDigits defaultCommands '9' [] [] =
      some (⟨DtmfOutcome.matched, "No previous message to repeat.", false, none⟩, [])
    ∧ processDigits defaultCommands '9' [] [Entry.mk Role.user "hello"] =
      some (⟨DtmfOutcome.matched, "No previous message to repeat.", false, none⟩, [])
    ∧ processDigits defaultCommands '9' []
        [Entry.mk Role.assistant "Welcome! How can I help you?",
         Entry.mk Role.user "I need assistance",
         Entry.mk Role.assistant "I would be happy to help you with that."] =
      some (⟨DtmfOutcome.matched, "I would be happy to help you with that.", false, none⟩, []) :=
  ⟨dtmf_nine_repeats_last_assistant.1 [] (by decide),
   dtmf_nine_repeats_last_assistant.1 [Entry.mk Role.user "hello"] (by decide),
   dtmf_nine_repeats_last_assistant.2
     [Entry.mk Role.assistant "Welcome! How can I help you?",
      Entry.mk Role.user "I need assistance",
      Entry.mk Role.assistant "I would be happy to help you with that."]
     (Entry.mk Role.assistant "I would be happy to help you with that.") (by decide)⟩

/-! ### Theorems: voice-text normalizer (claims C7 and C8) -/

/-- Characters with a structural or replaced meaning in cleanForVoice:
markup punctuation and the three replaced symbols. -/
def isMarkupChar (c : Char) : Bool :=
  c == '*' || c == tickChar || c == '#' || c == '[' ||
    c == '<' || c == '>' || c == '&' || c == '@'

/-- No two adjacent whitespace characters. -/
def noWsRun : List Char → Bool
  | a :: b :: rest => !(isWsChar a && isWsChar b) && noWsRun (b :: rest)
  | _ => true

/-- Already-clean text: no markup or replaced-symbol characters, all
whitespace is a single space between non-whitespace characters, nothing
to trim. -/
def isCleanText (l : List Char) : Bool :=
  l.all (fun x => !isMarkupChar x && (!isWsChar x || x == ' '))
    && noWsRun l
    && l.head?.all (fun x => !isWsChar x)
    && l.getLast?.all (fun x => !isWsChar x)

theorem isMarkupChar_false (x : Char) (h : isMarkupChar x = false) :
    x ≠ '*' ∧ x ≠ tickChar ∧ x ≠ '#' ∧ x ≠ '[' ∧
      x ≠ '<' ∧ x ≠ '>' ∧ x ≠ '&' ∧ x ≠ '@' := by
  simp only [isMarkupChar, Bool.or_eq_false_iff, beq_eq_false_iff_ne] at h
  tauto

theorem replaceBold_id (l : List Char) (h : ∀ x ∈ l, x ≠ '*') :
    replaceBold l = l := by
  induction l with
  | nil => rfl
  | cons a rest ih =>
    cases rest with
    | nil => rfl
    | cons b rest2 =>
      have ha : a ≠ '*' := h a (List.mem_cons_self _ _)
      simp only [replaceBold, if_neg (fun hc : a = '*' ∧ b = '*' => ha hc.1)]
      rw [ih (fun x hx => h x (List.mem_cons_of_mem a hx))]

theorem removeItalicStars_id (l : List Char) (h : ∀ x ∈ l, x ≠ '*') :
    removeItalicStars l = l :=
  List.filter_eq_self.mpr (fun a ha => by
    simpa using h a ha)

theorem stripCodeBlocksGo_id (fuel : Nat) :
    ∀ (l : List Char), (∀ x ∈ l, x ≠ tickChar) →
      stripCodeBlocksGo fuel l = l := by
  induction fuel with
  | zero => intro l _; rfl
  | succ n ih =>
    intro l h
    cases l with
    | nil => rfl
    | cons a rest =>
      have ha : a ≠ tickChar := h a (List.mem_cons_self _ _)
      simp only [stripCodeBlocksGo,
        if_neg (fun hc : a = tickChar ∧ rest.take 2 = [tickChar, tickChar] => ha hc.1)]
      rw [ih rest (fun x hx => h x (List.mem_cons_of_mem a hx))]

theorem stripCodeBlocks_id (l : List Char) (h : ∀ x ∈ l, x ≠ tickChar) :
    stripCodeBlocks l = l :=
  stripCodeBlocksGo_id l.length l h

theorem stripInlineCodeGo_id (fuel : Nat) :
    ∀ (l : List Char), (∀ x ∈ l, x ≠ tickChar) →
      stripInlineCodeGo fuel l = l := by
  induction fuel with
  | zero => intro l _; rfl
  | succ n ih =>
    intro l h
    cases l with
    | nil => rfl
    | cons a rest =>
      have ha : a ≠ tickChar := h a (List.mem_cons_self _ _)
      simp only [stripInlineCodeGo, if_neg ha]
      rw [ih rest (fun x hx => h x (List.mem_cons_of_mem a hx))]

theorem stripInlineCode_id (l : List Char) (h : ∀ x ∈ l, x ≠ tickChar) :
    stripInlineCode l = l :=
  stripInlineCodeGo_id l.length l h

theorem stripHeadersGo_id (fuel : Nat) :
    ∀ (l : List Char), (∀ x ∈ l, x ≠ '#') →
      stripHeadersGo fuel l = l := by
  induction fuel with
  | zero => intro l _; rfl
  | succ n ih =>
    intro l h
    cases l with
    | nil => rfl
    | cons a rest =>
      have ha : a ≠ '#' := h a (List.mem_cons_self _ _)
      simp only [stripHeadersGo, if_neg ha]
      rw [ih rest (fun x hx => h x (List.mem_cons_of_mem a hx))]

theorem stripHeaders_id (l : List Char) (h : ∀ x ∈ l, x ≠ '#') :
    stripHeaders l = l :=
  stripHeadersGo_id l.length l h

theorem stripLinksGo_id (fuel : Nat) :
    ∀ (l : List Char), (∀ x ∈ l, x ≠ '[') →
      stripLinksGo fuel l = l := by
  induction fuel with
  | zero => intro l _; rfl
  | succ n ih =>
    intro l h
    cases l with
    | nil => rfl
    | cons a rest =>
      have ha : a ≠ '[' := h a (List.mem_cons_self _ _)
      simp only [stripLinksGo, if_neg ha]
      rw [ih rest (fun x hx => h x (List.mem_cons_of_mem a hx))]

theorem stripLinks_id (l : List Char) (h : ∀ x ∈ l, x ≠ '[') :
    stripLinks l = l :=
  stripLinksGo_id l.length l h

theorem stripAngles_id (l : List Char)
    (h : ∀ x ∈ l, x ≠ '<' ∧ x ≠ '>') : stripAngles l = l :=
  List.filter_eq_self.mpr (fun a ha => by
    have := h a ha
    simp [this.1, this.2])

theorem replaceChar_id (t : Char) (s : List Char) (l : List Char)
    (h : ∀ x ∈ l, x ≠ t) : replaceChar t s l = l := by
  induction l with
  | nil => rfl
  | cons a rest ih =>
    have ha : a ≠ t := h a (List.mem_cons_self _ _)
    simp only [replaceChar, if_neg ha, List.singleton_append]
    rw [ih (fun x hx => h x (List.mem_cons_of_mem a hx))]

/-- All of stages one to eight leave a markup-free input unchanged. -/
theorem markupFree_stages_id (l : List Char)
    (h : ∀ x ∈ l, isMarkupChar x = false) :
    replaceChar '#' " number ".data (replaceChar '@' " at ".data
      (replaceChar '&' " and ".data (stripAngles (stripLinks (stripHeaders
        (stripInlineCode (stripCodeBlocks
          (removeItalicStars (replaceBold l))))))))) = l := by
  have hc : ∀ x ∈ l, x ≠ '*' ∧ x ≠ tickChar ∧ x ≠ '#' ∧ x ≠ '[' ∧
      x ≠ '<' ∧ x ≠ '>' ∧ x ≠ '&' ∧ x ≠ '@' :=
    fun x hx => isMarkupChar_false x (h x hx)
  rw [replaceBold_id l (fun x hx => (hc x hx).1),
    removeItalicStars_id l (fun x hx => (hc x hx).1),
    stripCodeBlocks_id l (fun x hx => (hc x hx).2.1),
    stripInlineCode_id l (fun x hx => (hc x hx).2.1),
    stripHeaders_id l (fun x hx => (hc x hx).2.2.1),
    stripLinks_id l (fun x hx => (hc x hx).2.2.2.1),
    stripAngles_id l (fun x hx => ⟨(hc x hx).2.2.2.2.1, (hc x hx).2.2.2.2.2.1⟩),
    replaceChar_id '&' _ l (fun x hx => (hc x hx).2.2.2.2.2.2.1),
    replaceChar_id '@' _ l (fun x hx => (hc x hx).2.2.2.2.2.2.2),
    replaceChar_id '#' _ l (fun x hx => (hc x hx).2.2.1)]

theorem noWsRun_tail (c : Char) (rest : List Char)
    (h : noWsRun (c :: rest) = true) : noWsRun rest = true := by
  cases rest with
  | nil => rfl
  | cons d rest2 =>
    simp only [noWsRun, Bool.and_eq_true] at h
    exact h.2

theorem collapseWsGo_id :
    ∀ (l : List Char) (b : Bool),
      (∀ x ∈ l, isWsChar x = true → x = ' ') → noWsRun l = true →
      (b = true → l.head?.all (fun x => !isWsChar x) = true) →
      collapseWsGo b l = l := by
  intro l
  induction l with
  | nil => intro b _ _ _; rfl
  | cons c rest ih =>
    intro b hall hrun hflag
    by_cases hw : isWsChar c = true
    · have hb : b = false := by
        cases b with
        | false => rfl
        | true =>
          have := hflag rfl
          simp only [List.head?_cons, Option.all_some, Bool.not_eq_true'] at this
          rw [this] at hw
          cases hw
      subst hb
      have hsp : c = ' ' := hall c (List.mem_cons_self _ _) hw
      simp only [collapseWsGo, hw, if_true, Bool.false_eq_true, if_false]
      rw [← hsp]
      congr 1
      refine ih true (fun x hx hwx => hall x (List.mem_cons_of_mem c hx) hwx)
        (noWsRun_tail c rest hrun) ?_
      intro _
      cases rest with
      | nil => rfl
      | cons d rest2 =>
        simp only [noWsRun, Bool.and_eq_true, Bool.not_eq_true',
          Bool.and_eq_false_iff] at hrun
        rcases hrun.1 with hd | hd
        · rw [hw] at hd; cases hd
        · simp [hd]
    · simp only [collapseWsGo, hw, Bool.false_eq_true, if_false]
      congr 1
      exact ih false (fun x hx hwx => hall x (List.mem_cons_of_mem c hx) hwx)
        (noWsRun_tail c rest hrun) (fun hcontra => by cases hcontra)

theorem collapseWs_id (l : List Char)
    (hall : ∀ x ∈ l, isWsChar x = true → x = ' ') (hrun : noWsRun l = true) :
    collapseWs l = l :=
  collapseWsGo_id l false hall hrun (fun hcontra => by cases hcontra)

theorem dropWhile_head_id (p : Char → Bool) (l : List Char)
    (h : l.head?.all (fun x => !p x) = true) : l.dropWhile p = l := by
  cases l with
  | nil => rfl
  | cons c rest =>
    simp only [List.head?_cons, Option.all_some, Bool.not_eq_true'] at h
    simp [List.dropWhile_cons, h]

theorem trimChars_id (l : List Char)
    (hh : l.head?.all (fun x => !isWsChar x) = true)
    (hl : l.getLast?.all (fun x => !isWsChar x) = true) :
    trimChars l = l := by
  rw [trimChars, dropWhile_head_id isWsChar l hh,
    dropWhile_head_id isWsChar l.reverse (by rw [List.head?_reverse]; exact hl),
    List.reverse_reverse]

/-- Claim C8: the normalizer example — markup stripped, hash replaced,
whitespace collapsed — and idempotence: a second application changes
nothing, and on any already-clean text the normalizer is the identity. -/
theorem cleanForVoice_example_idempotent :
    cleanForVoiceStr "**Hello** #1" = "Hello number 1"
    ∧ cleanForVoiceStr (cleanForVoiceStr "**Hello** #1")
        = cleanForVoiceStr "**Hello** #1"
    ∧ (∀ l : List Char, isCleanText l = true → cleanForVoice l = l) := by
  refine ⟨by decide, by decide, ?_⟩
  intro l hclean
  simp only [isCleanText, Bool.and_eq_true, List.all_eq_true] at hclean
  obtain ⟨⟨⟨hall, hrun⟩, hhead⟩, hlast⟩ := hclean
  have hmk : ∀ x ∈ l, isMarkupChar x = false := by
    intro x hx
    have := hall x hx
    simp only [Bool.and_eq_true, Bool.not_eq_true'] at this
    exact this.1
  have hsp : ∀ x ∈ l, isWsChar x = true → x = ' ' := by
    intro x hx hwx
    have := hall x hx
    simp only [Bool.and_eq_true, Bool.or_eq_true, Bool.not_eq_true'] at this
    rcases this.2 with hc | hc
    · rw [hwx] at hc; cases hc
    · simpa using hc
  rw [cleanForVoice, markupFree_stages_id l hmk, collapseWs_id l hsp hrun,
    trimChars_id l hhead hlast]

/-- Witness for C8 at a concrete already-clean string. -/
theorem cleanForVoice_example_idempotent_witness :
    cleanForVoice "Hello number 1".data = "Hello number 1".data :=
  cleanForVoice_example_idempotent.2.2 "Hello number 1".data (by decide)

theorem stripCodeBlocksGo_nil (fuel : Nat) : stripCodeBlocksGo fuel [] = [] := by
  cases fuel <;> rfl

/-- A tick-free prefix followed by a closing fence: the fence is found,
nothing follows it. -/
theorem splitAtFence_closing (x : List Char) (hx : ∀ c ∈ x, c ≠ tickChar) :
    splitAtFence (x ++ [tickChar, tickChar, tickChar]) = some [] := by
  induction x with
  | nil => decide
  | cons a x2 ih =>
    have ha : a ≠ tickChar := hx a (List.mem_cons_self _ _)
    simp only [List.cons_append, splitAtFence]
    rw [if_neg (fun hc => ha hc.1)]
    exact ih (fun c hc => hx c (List.mem_cons_of_mem a hc))

theorem filter_nonWs_collapseWsGo :
    ∀ (l : List Char) (b : Bool),
      (collapseWsGo b l).filter (fun x => !isWsChar x)
        = l.filter (fun x => !isWsChar x) := by
  intro l
  induction l with
  | nil => intro b; rfl
  | cons c rest ih =>
    intro b
    have hspace : isWsChar ' ' = true := rfl
    by_cases hw : isWsChar c = true
    · cases b with
      | true => simp [collapseWsGo, hw, List.filter_cons, ih]
      | false => simp [collapseWsGo, hw, hspace, List.filter_cons, ih]
    · simp [collapseWsGo, hw, List.filter_cons, ih]

theorem filter_nonWs_dropWhile (l : List Char) :
    (l.dropWhile isWsChar).filter (fun x => !isWsChar x)
      = l.filter (fun x => !isWsChar x) := by
  induction l with
  | nil => rfl
  | cons c rest ih =>
    by_cases hw : isWsChar c = true
    · simp only [List.dropWhile_cons, hw, if_true]
      rw [ih]
      simp [List.filter_cons, hw]
    · simp [List.dropWhile_cons, hw]

theorem filter_nonWs_trimChars (l : List Char) :
    (trimChars l).filter (fun x => !isWsChar x)
      = l.filter (fun x => !isWsChar x) := by
  rw [trimChars, List.filter_reverse, filter_nonWs_dropWhile,
    List.filter_reverse, List.reverse_reverse, filter_nonWs_dropWhile]

/-- Counterexample to claim C7: the letters of a fenced code block are
plain non-whitespace content, yet cleanForVoice erases the whole block —
the output of cleaning three backticks, the word secret, three backticks
is empty. -/
theorem codeblock_content_dropped_cex :
    's' ∈ [tickChar, tickChar, tickChar] ++ "secret".data ++ [tickChar, tickChar, tickChar]
    ∧ isWsChar 's' = false
    ∧ isMarkupChar 's' = false
    ∧ cleanForVoice
        ([tickChar, tickChar, tickChar] ++ "secret".data ++ [tickChar, tickChar, tickChar])
      = [] := by
  refine ⟨?_, ?_, ?_, ?_⟩ <;> decide

/-- Claim C7 (amended): cleanForVoice deletes fenced code blocks whole,
text included; away from markup it never drops content — on any input
free of markup and replaced-symbol characters the non-whitespace
characters are preserved exactly, in order. -/
theorem cleanForVoice_preserves_nonmarkup :
    (∀ l : List Char, (∀ x ∈ l, isMarkupChar x = false) →
        (cleanForVoice l).filter (fun x => !isWsChar x)
          = l.filter (fun x => !isWsChar x))
    ∧ (∀ x : List Char, (∀ c ∈ x, c ≠ tickChar ∧ c ≠ '*') →
        cleanForVoice
            ([tickChar, tickChar, tickChar] ++ x ++ [tickChar, tickChar, tickChar])
          = []) := by
  constructor
  · intro l h
    rw [cleanForVoice, markupFree_stages_id l h, filter_nonWs_trimChars,
      collapseWs, filter_nonWs_collapseWsGo]
  · intro x hx
    have htick : tickChar ≠ '*' := by decide
    have hmem : ∀ c ∈ ([tickChar, tickChar, tickChar] ++ x
        ++ [tickChar, tickChar, tickChar]), c = tickChar ∨ c ∈ x := by
      intro c hc
      rcases List.mem_append.1 hc with hc1 | hc2
      · rcases List.mem_append.1 hc1 with hc3 | hc4
        · left; simpa using hc3
        · right; exact hc4
      · left; simpa using hc2
    have hstar : ∀ c ∈ ([tickChar, tickChar, tickChar] ++ x
        ++ [tickChar, tickChar, tickChar]), c ≠ '*' := by
      intro c hc
      rcases hmem c hc with h | h
      · rw [h]; exact htick
      · exact (hx c h).2
    rw [cleanForVoice, replaceBold_id _ hstar, removeItalicStars_id _ hstar]
    have hsplit : splitAtFence (x ++ [tickChar, tickChar, tickChar]) = some [] :=
      splitAtFence_closing x (fun c hc => (hx c hc).1)
    have h3 : stripCodeBlocks ([tickChar, tickChar, tickChar] ++ x
        ++ [tickChar, tickChar, tickChar]) = [] := by
      have hlen : ([tickChar, tickChar, tickChar] ++ x
          ++ [tickChar, tickChar, tickChar]).length = (x.length + 5) + 1 := by
        simp [List.length_append]
      rw [stripCodeBlocks, hlen]
      show stripCodeBlocksGo (x.length + 5 + 1)
        (tickChar :: tickChar :: tickChar :: (x ++ [tickChar, tickChar, tickChar])) = []
      simp only [stripCodeBlocksGo, List.take_succ_cons, List.take_zero,
        List.drop_succ_cons, List.drop_zero, and_self, if_true, hsplit,
        stripCodeBlocksGo_nil]
    rw [h3]
    rfl

/-- Witness for C7 (amended) at a concrete markup-free sentence and a
concrete code block. -/
theorem cleanForVoice_preserves_nonmarkup_witness :
    (cleanForVoice "say 20 percent, then stop.".data).filter (fun x => !isWsChar x)
      = "say 20 percent, then stop.".data.filter (fun x => !isWsChar x)
    ∧ cleanForVoice
        ([tickChar, tickChar, tickChar] ++ "hidden".data ++ [tickChar, tickChar, tickChar])
      = [] :=
  ⟨cleanForVoice_preserves_nonmarkup.1 "say 20 percent, then stop.".data (by decide),
   cleanForVoice_preserves_nonmarkup.2 "hidden".data (by decide)⟩

end CrMetaLlama








